import Mathlib

/-!
Shallow embedding of the fixedvec crate (src/lib.rs): a heapless vector
backed by a caller-supplied slice.  The backing region is modelled as a
`List α` together with the active length `len`; slice indexing that can
fail at runtime (a Rust panic) is modelled with `Option` / an explicit
fault constructor.
-/

/-- Error type of the crate, with its single variant `ErrorKind::NoSpace`. -/
inductive ErrorKind where
  | NoSpace
deriving Repr, DecidableEq

/-- Embedding of `FixedVec<'a, T>`: the borrowed backing region `memory`
and the active length `len`. -/
structure FVec (α : Type) where
  memory : List α
  len : Nat
deriving Repr, DecidableEq

namespace FVec

variable {α : Type}

/-- Embedding of `capacity()`: the length of the backing region. -/
def capacity (v : FVec α) : Nat := v.memory.length

/-- Embedding of `available()`: `capacity() - len()` (truncated usize
subtraction; in every state the program constructs, `len ≤ capacity`). -/
def available (v : FVec α) : Nat := v.capacity - v.len

/-- Embedding of `as_slice()`: the active elements `&memory[..len]`. -/
def as_slice (v : FVec α) : List α := v.memory.take v.len

/-- Well-formedness the Rust module maintains for every vector it ever
builds: the active length never exceeds the backing region. -/
abbrev Wf (v : FVec α) : Prop := v.len ≤ v.memory.length

/-- Embedding of the `Index` impl: `&self.memory[index]` reads the full
backing slice; `none` models the out-of-bounds panic, which occurs only
when `index` is at or beyond `capacity`, not at `len`. -/
def indexRead (v : FVec α) (i : Nat) : Option α := v.memory[i]?

/-- Embedding of `push`: returns the `Result` and the post-state. -/
def push (v : FVec α) (value : α) : Except ErrorKind Unit × FVec α :=
  if 1 ≤ v.available then
    (Except.ok (), ⟨v.memory.set v.len value, v.len + 1⟩)
  else
    (Except.error ErrorKind.NoSpace, v)

/-- Embedding of `pop`: decrement `len`, return the element just past
the new active region.  The backing region is never written. -/
def pop (v : FVec α) : Option α × FVec α :=
  if 0 < v.len then
    (v.memory[v.len - 1]?, ⟨v.memory, v.len - 1⟩)
  else
    (none, v)

/-- Copy loop of `push_all`: `for i in 0..other.len()` do
`memory[len] = other[i]; len += 1`. -/
def pushAllLoop (m : List α) (len : Nat) : List α → List α × Nat
  | [] => (m, len)
  | x :: rest => pushAllLoop (m.set len x) (len + 1) rest

/-- Embedding of `push_all`: all-or-nothing bulk append. -/
def push_all (v : FVec α) (other : List α) : Except ErrorKind Unit × FVec α :=
  if other.length > v.available then
    (Except.error ErrorKind.NoSpace, v)
  else
    let r := pushAllLoop v.memory v.len other
    (Except.ok (), ⟨r.1, r.2⟩)

/-- Embedding of `clear`: set `len = 0`, leave the region untouched. -/
def clear (v : FVec α) : FVec α := ⟨v.memory, 0⟩

/-- Outcome of a method that may die with an index fault (slice indexing
out of bounds, or usize underflow): either the fault, or a `Result`
together with the post-state of the vector. -/
inductive Outcome (α : Type) where
  | fault
  | done (r : Except ErrorKind Unit) (v : FVec α)
deriving Repr

/-- Shift loop of `insert`: while `i != index`, do
`memory[i] = memory[i - 1]; i -= 1`.  `none` models the panic when a
read or write is out of bounds or when `i - 1` underflows. -/
def insertLoop : List α → Nat → Nat → Option (List α)
  | m, i, index =>
    if i = index then some m
    else
      match i with
      | 0 => none
      | j + 1 =>
        match m[j]? with
        | none => none
        | some x =>
          if j + 1 < m.length then insertLoop (m.set (j + 1) x) j index
          else none

/-- Embedding of `insert` (lib.rs 347-365) with its fault behavior:
bounds guard on `capacity`, the `len == 0` path through `push`, the
shift loop started at `i = len + 1` after `len += 1`, and the final
write of `element` at `index`. -/
def insert (v : FVec α) (index : Nat) (element : α) : Outcome α :=
  if index > v.capacity then Outcome.fault
  else if v.len = 0 then
    let p := v.push element
    Outcome.done p.1 p.2
  else if 1 ≤ v.available then
    match insertLoop v.memory (v.len + 1) index with
    | none => Outcome.fault
    | some m =>
      if index < m.length then
        Outcome.done (Except.ok ()) ⟨m.set index element, v.len + 1⟩
      else Outcome.fault
  else Outcome.done (Except.error ErrorKind.NoSpace) v

/-- Shift loop of `remove`: `for i in index..stop` do
`memory[i] = memory[i + 1]` (the `none` read branch is unreachable for
well-formed states). -/
def removeLoop (m : List α) (i stop : Nat) : List α :=
  if i < stop then
    match m[i + 1]? with
    | some x => removeLoop (m.set i x) (i + 1) stop
    | none => m
  else m
termination_by stop - i

/-- Embedding of `remove`: `none` models the `assert!(index < len)`
failure (and an out-of-bounds read of the removed element). -/
def remove (v : FVec α) (index : Nat) : Option (α × FVec α) :=
  if index < v.len then
    match v.memory[index]? with
    | some ret => some (ret, ⟨removeLoop v.memory index (v.len - 1), v.len - 1⟩)
    | none => none
  else none

/-- Embedding of `swap_remove`: `none` models the assert failure or an
unreachable `unwrap` fault. -/
def swap_remove (v : FVec α) (index : Nat) : Option (α × FVec α) :=
  if index < v.len then
    if v.len = 1 then v.remove 0
    else
      match v.memory[index]?, v.pop with
      | some removed, (some last, v') => some (removed, ⟨v'.memory.set index last, v'.len⟩)
      | _, _ => none
  else none

/-- Fill loop of `resize`: write `value` into slots `[i, stop)`. -/
def fillLoop (m : List α) (i stop : Nat) (value : α) : List α :=
  if i < stop then fillLoop (m.set i value) (i + 1) stop value else m
termination_by stop - i

/-- Embedding of `resize`: `none` models the
`assert!(new_len <= capacity)` failure. -/
def resize (v : FVec α) (new_len : Nat) (value : α) : Option (FVec α) :=
  if new_len ≤ v.capacity then
    if new_len ≤ v.len then some ⟨v.memory, new_len⟩
    else some ⟨fillLoop v.memory v.len new_len value, new_len⟩
  else none

/-- Loop of `map_in_place`: apply `f` to each slot in `[0, len)`. -/
def mapLoop (f : α → α) (m : List α) (i len : Nat) : List α :=
  if i < len then
    match m[i]? with
    | some x => mapLoop f (m.set i (f x)) (i + 1) len
    | none => m
  else m
termination_by len - i

/-- Embedding of `map_in_place`. -/
def map_in_place (f : α → α) (v : FVec α) : FVec α :=
  ⟨mapLoop f v.memory 0 v.len, v.len⟩

/-- Compaction loop of `retain`: keep the elements satisfying `f`,
copying each kept element down to the next free `tail` slot. -/
def retainLoop (f : α → Bool) (m : List α) (len head tail : Nat) : List α × Nat :=
  if head < len then
    match m[head]? with
    | some x =>
      if f x then retainLoop f (m.set tail x) len (head + 1) (tail + 1)
      else retainLoop f m len (head + 1) tail
    | none => (m, tail)
  else (m, tail)
termination_by len - head

/-- Embedding of `retain`. -/
def retain (f : α → Bool) (v : FVec α) : FVec α :=
  let r := retainLoop f v.memory v.len 0 0
  ⟨r.1, r.2⟩

/-- Compaction loop of `dedup`: advance `head`, and whenever
`memory[head] != memory[tail]` copy `memory[head]` to slot `tail + 1`. -/
def dedupLoop [DecidableEq α] (m : List α) (len head tail : Nat) : List α × Nat :=
  if head < len then
    match m[head]?, m[tail]? with
    | some x, some y =>
      if x ≠ y then dedupLoop (m.set (tail + 1) x) len (head + 1) (tail + 1)
      else dedupLoop m len (head + 1) tail
    | _, _ => (m, tail)
  else (m, tail)
termination_by len - head

/-- Embedding of `dedup`: no-op when `len ≤ 1`, else run the loop from
`head = 1, tail = 0` and set `len = tail + 1`. -/
def dedup [DecidableEq α] (v : FVec α) : FVec α :=
  if v.len ≤ 1 then v
  else
    let r := dedupLoop v.memory v.len 1 0
    ⟨r.1, r.2 + 1⟩

/-- Append loop of `Extend::extend`: write at `len`, increment, and
break as soon as `available()` becomes `0`. -/
def extendLoop (m : List α) (len : Nat) : List α → List α × Nat
  | [] => (m, len)
  | n :: rest =>
    let m' := m.set len n
    if m'.length - (len + 1) = 0 then (m', len + 1)
    else extendLoop m' (len + 1) rest

/-- Embedding of `Extend::extend`: best-effort append that silently
stops at capacity. -/
def extend (v : FVec α) (it : List α) : FVec α :=
  if v.available = 0 then v
  else
    let r := extendLoop v.memory v.len it
    ⟨r.1, r.2⟩

/-- Embedding of the `PartialEq` impl: lengths equal and the indexed
reads (through the `Index` impl, over the full backing slice) agree on
`0..len`.  For well-formed vectors every such read is in bounds. -/
def fveq [DecidableEq α] (v w : FVec α) : Bool :=
  if v.len ≠ w.len then false
  else (List.range v.len).all fun i => decide (indexRead v i = indexRead w i)

/-- Embedding of the `Hash` impl: it hashes `&*self.memory`, the whole
backing slice.  Rust's slice `Hash` feeds the slice length and then
every element to the hasher, so the hasher input is exactly this pair. -/
def hashData (v : FVec α) : Nat × List α := (v.memory.length, v.memory)

end FVec

/-- Specification of run collapsing: every maximal run of consecutive
equal elements is replaced by its first element. -/
def dedupSpec [DecidableEq α] (l : List α) : List α :=
  match l with
  | [] => []
  | [a] => [a]
  | a :: b :: rest =>
    if a = b then dedupSpec (a :: rest) else a :: dedupSpec (b :: rest)
termination_by l.length

/-- Helper scan for run collapsing: keep each element that differs from
the last kept one (`last`). -/
def dedupGo [DecidableEq α] (last : α) : List α → List α
  | [] => []
  | x :: xs => if x = last then dedupGo last xs else x :: dedupGo x xs

open FVec

/-- Setting a slot at or past the taken prefix does not change the prefix. -/
lemma take_set_of_le' {α : Type} (l : List α) (i n : Nat) (x : α) (h : n ≤ i) :
    (l.set i x).take n = l.take n := by
  apply List.ext_getElem?
  intro p
  rw [List.getElem?_take, List.getElem?_take]
  split
  · next hp => rw [List.getElem?_set_ne (by omega)]
  · rfl

/-- Commuting `set` with `take`. -/
lemma set_take_comm {α : Type} (l : List α) (i n : Nat) (x : α) :
    (l.set i x).take n = (l.take n).set i x := by
  apply List.ext_getElem?
  intro p
  rcases eq_or_ne i p with rfl | hne
  · rw [List.getElem?_take, List.getElem?_set, List.getElem?_set, List.length_take]
    by_cases h1 : i < n <;> by_cases h2 : i < l.length <;>
      simp [h1, h2, lt_min_iff]
  · rw [List.getElem?_take, List.getElem?_set_ne hne, List.getElem?_set_ne hne,
      List.getElem?_take]

/-- Taking one slot past a freshly set slot appends the new value. -/
lemma take_set_succ {α : Type} (l : List α) (i : Nat) (x : α) (h : i < l.length) :
    (l.set i x).take (i + 1) = l.take i ++ [x] := by
  rw [List.take_succ, take_set_of_le' l i i x le_rfl,
    List.getElem?_set_self (by simpa using h)]
  rfl

/-- C1.  The claim states that equal vectors hash equal.  The code
hashes the whole backing region, so two vectors that compare equal
(same `len = 1`, same active element `7`) but carry different leftover
values beyond `len` feed different data to the hasher. -/
theorem hash_differs_on_equal_vectors :
    fveq (⟨[7, 1], 1⟩ : FVec Nat) ⟨[7, 2], 1⟩ = true ∧
      hashData (⟨[7, 1], 1⟩ : FVec Nat) ≠ hashData (⟨[7, 2], 1⟩ : FVec Nat) := by
  constructor
  · rfl
  · decide

/-- C2.  The claim states that `insert` succeeds whenever
`index ≤ len` and `available() ≥ 1`; the crate's own doctest asserts
the same for inserting at the append position.  But with `len = 1`,
`available() = 1`, the shift loop's first write targets slot
`len + 1 = 2`, one past the region, and the call dies with an index
fault instead of returning `Ok`. -/
theorem insert_avail_one_faults :
    insert (⟨[9, 0], 1⟩ : FVec Nat) 1 5 = Outcome.fault := rfl

/-- C3.  The claim states that indexed access at `i ≥ len` fails
fatally.  The `Index` impl reads the full backing slice, so reading
index `1` of a vector with `len = 1` and capacity `2` succeeds and
returns the leftover value `20` instead of faulting. -/
theorem index_read_beyond_len_succeeds :
    indexRead (⟨[10, 20], 1⟩ : FVec Nat) 1 = some 20 ∧
      (⟨[10, 20], 1⟩ : FVec Nat).len ≤ 1 := by
  constructor
  · rfl
  · decide

/-- C10.  `pop` on a non-empty vector never writes the backing region:
the memory is unchanged, `len` drops by one, and the popped value is
exactly the slot just past the new active region. -/
theorem pop_leaves_memory_unchanged {α : Type} (v : FVec α) (h : 0 < v.len) :
    (v.pop.2.memory = v.memory ∧ v.pop.2.len = v.len - 1) ∧
      v.pop.1 = v.pop.2.memory[v.pop.2.len]? := by
  simp [pop, h]

/-- Witness for C10 at a concrete non-empty vector. -/
theorem pop_leaves_memory_unchanged_witness :
    ((⟨[4, 5], 2⟩ : FVec Nat).pop.2.memory = [4, 5] ∧
        (⟨[4, 5], 2⟩ : FVec Nat).pop.2.len = 1) ∧
      (⟨[4, 5], 2⟩ : FVec Nat).pop.1 = [4, 5][1]? := by
  have h := pop_leaves_memory_unchanged (⟨[4, 5], 2⟩ : FVec Nat) (by decide)
  simpa using h

/-- A successful `push` appends `value` at slot `len` and increments `len`. -/
lemma push_ok_char {α : Type} (v : FVec α) (x : α) (v' : FVec α)
    (h : v.push x = (Except.ok (), v')) :
    1 ≤ v.available ∧ v' = ⟨v.memory.set v.len x, v.len + 1⟩ := by
  unfold push at h
  split at h
  · next hav => exact ⟨hav, (Prod.mk.injEq _ _ _ _).mp h |>.2.symm⟩
  · exact absurd ((Prod.mk.injEq _ _ _ _).mp h).1 (by simp)

/-- C6.  A `push` that succeeds is undone by the following `pop`: the
pop returns the pushed value, the length returns to its prior value,
and the active elements are exactly those before the push. -/
theorem push_pop_roundtrip {α : Type} (v : FVec α) (x : α) (v' : FVec α)
    (h : v.push x = (Except.ok (), v')) :
    v'.pop.1 = some x ∧ v'.pop.2.len = v.len ∧ v'.pop.2.as_slice = v.as_slice := by
  obtain ⟨hav, rfl⟩ := push_ok_char v x v' h
  have hlt : v.len < v.memory.length := by
    unfold available capacity at hav; omega
  have hpop : (⟨v.memory.set v.len x, v.len + 1⟩ : FVec α).pop
      = ((v.memory.set v.len x)[v.len]?, ⟨v.memory.set v.len x, v.len⟩) := by
    unfold pop
    simp
  rw [hpop]
  refine ⟨?_, rfl, ?_⟩
  · exact List.getElem?_set_self (by simpa using hlt)
  · unfold as_slice
    exact take_set_of_le' _ _ _ _ le_rfl

/-- Witness for C6: pushing 7 onto an empty one-slot vector and popping
returns 7 and restores the empty active region. -/
theorem push_pop_roundtrip_witness :
    ((⟨[0], 0⟩ : FVec Nat).push 7).2.pop.1 = some 7 ∧
      ((⟨[0], 0⟩ : FVec Nat).push 7).2.pop.2.len = 0 ∧
      ((⟨[0], 0⟩ : FVec Nat).push 7).2.pop.2.as_slice = ([] : List Nat) := by
  have h := push_pop_roundtrip (⟨[0], 0⟩ : FVec Nat) 7 ⟨[7], 1⟩ rfl
  simpa [as_slice] using h

/-- The copy loop of `push_all` writes the new elements in order right
after the old active prefix and advances `len` by their count. -/
lemma pushAllLoop_spec {α : Type} (xs : List α) :
    ∀ (m : List α) (len : Nat), len + xs.length ≤ m.length →
      (pushAllLoop m len xs).2 = len + xs.length ∧
        (pushAllLoop m len xs).1.length = m.length ∧
        (pushAllLoop m len xs).1.take (len + xs.length) = m.take len ++ xs := by
  induction xs with
  | nil => intro m len h; simp [pushAllLoop]
  | cons x rest ih =>
    intro m len h
    have hlt : len < m.length := by simp at h; omega
    have hrec := ih (m.set len x) (len + 1)
      (by simpa using by simp at h ⊢; omega)
    rw [pushAllLoop]
    have harith : len + 1 + rest.length = len + (x :: rest).length := by
      simp; omega
    refine ⟨by rw [hrec.1] at *; omega, by rw [hrec.2.1]; simp, ?_⟩
    rw [← harith, hrec.2.2, take_set_succ m len x hlt]
    simp

/-- C4.  `push_all` is all-or-nothing: with too little room it returns
the capacity error and the vector is untouched; otherwise it returns
`Ok`, appends the whole slice in order, and grows `len` by its length. -/
theorem push_all_all_or_nothing {α : Type} (v : FVec α) (xs : List α) (hwf : v.Wf) :
    (xs.length > v.available → v.push_all xs = (Except.error ErrorKind.NoSpace, v)) ∧
      (xs.length ≤ v.available →
        ∃ v', v.push_all xs = (Except.ok (), v') ∧ v'.len = v.len + xs.length ∧
          v'.as_slice = v.as_slice ++ xs ∧ v'.capacity = v.capacity) := by
  constructor
  · intro hgt
    unfold push_all
    rw [if_pos hgt]
  · intro hle
    have hroom : v.len + xs.length ≤ v.memory.length := by
      unfold available capacity at hle
      unfold Wf at hwf
      omega
    obtain ⟨h1, h2, h3⟩ := pushAllLoop_spec xs v.memory v.len hroom
    refine ⟨⟨(pushAllLoop v.memory v.len xs).1, (pushAllLoop v.memory v.len xs).2⟩, ?_, ?_, ?_, ?_⟩
    · unfold push_all
      rw [if_neg (by omega)]
    · exact h1
    · unfold as_slice
      simpa [h1] using h3
    · unfold capacity
      exact h2

/-- Witness for C4 at a concrete vector with one active element and two
free slots, appending a two-element slice. -/
theorem push_all_all_or_nothing_witness :
    (([8, 9] : List Nat).length > (⟨[5, 0, 0], 1⟩ : FVec Nat).available →
        (⟨[5, 0, 0], 1⟩ : FVec Nat).push_all [8, 9] =
          (Except.error ErrorKind.NoSpace, ⟨[5, 0, 0], 1⟩)) ∧
      (([8, 9] : List Nat).length ≤ (⟨[5, 0, 0], 1⟩ : FVec Nat).available →
        ∃ v', (⟨[5, 0, 0], 1⟩ : FVec Nat).push_all [8, 9] = (Except.ok (), v') ∧
          v'.len = (⟨[5, 0, 0], 1⟩ : FVec Nat).len + ([8, 9] : List Nat).length ∧
          v'.as_slice = (⟨[5, 0, 0], 1⟩ : FVec Nat).as_slice ++ [8, 9] ∧
          v'.capacity = (⟨[5, 0, 0], 1⟩ : FVec Nat).capacity) :=
  push_all_all_or_nothing (⟨[5, 0, 0], 1⟩ : FVec Nat) [8, 9] (by decide)

/-- With an empty shift range, the `remove` loop does nothing. -/
lemma removeLoop_zero {α : Type} (m : List α) (i : Nat) : removeLoop m i i = m := by
  rw [removeLoop]
  simp

/-- C8.  `swap_remove(index)` returns the element at `index`; the new
active sequence is the old one with slot `index` overwritten by the old
last element and the last slot dropped, and `len` drops by one.  With
`len = 1` this degenerates to returning the sole element and leaving
the vector empty. -/
theorem swap_remove_exact {α : Type} (v : FVec α) (index : Nat)
    (hwf : v.Wf) (hi : index < v.len) :
    ∃ a last v', v.memory[index]? = some a ∧ v.memory[v.len - 1]? = some last ∧
      v.swap_remove index = some (a, v') ∧ v'.len = v.len - 1 ∧
      v'.as_slice = (v.as_slice.set index last).take (v.len - 1) ∧
      v'.capacity = v.capacity := by
  obtain ⟨m, len⟩ := v
  simp only [Wf] at hwf hi ⊢
  have hidx : index < m.length := by omega
  have hlast : len - 1 < m.length := by omega
  by_cases hlen1 : len = 1
  · subst hlen1
    have hidx0 : index = 0 := by omega
    subst hidx0
    refine ⟨m[0], m[0], ⟨m, 0⟩, List.getElem?_eq_getElem hidx,
      List.getElem?_eq_getElem hlast, ?_, rfl, ?_, rfl⟩
    · unfold swap_remove remove
      rw [if_pos hi, if_pos rfl, if_pos (by omega : (0 : Nat) < 1),
        List.getElem?_eq_getElem (by omega : 0 < m.length)]
      simp [removeLoop_zero]
    · unfold as_slice
      simp
  · have h0 : 0 < len := by omega
    have hpop : (⟨m, len⟩ : FVec α).pop = (some m[len - 1], ⟨m, len - 1⟩) := by
      unfold pop
      rw [if_pos h0, List.getElem?_eq_getElem hlast]
    refine ⟨m[index], m[len - 1], ⟨m.set index m[len - 1], len - 1⟩,
      List.getElem?_eq_getElem hidx, List.getElem?_eq_getElem hlast, ?_, rfl, ?_, ?_⟩
    · unfold swap_remove
      rw [if_pos hi, if_neg hlen1, List.getElem?_eq_getElem hidx, hpop]
    · unfold as_slice
      rw [set_take_comm, set_take_comm, List.take_take,
        min_eq_left (by omega : len - 1 ≤ len)]
    · unfold capacity
      simp

/-- Witness for C8: the doc example, removing index 1 of `[0,1,2,3]`. -/
theorem swap_remove_exact_witness :
    ∃ a last v', (⟨[0, 1, 2, 3], 4⟩ : FVec Nat).memory[1]? = some a ∧
      (⟨[0, 1, 2, 3], 4⟩ : FVec Nat).memory[4 - 1]? = some last ∧
      (⟨[0, 1, 2, 3], 4⟩ : FVec Nat).swap_remove 1 = some (a, v') ∧
      v'.len = 4 - 1 ∧
      v'.as_slice = (((⟨[0, 1, 2, 3], 4⟩ : FVec Nat).as_slice).set 1 last).take (4 - 1) ∧
      v'.capacity = (⟨[0, 1, 2, 3], 4⟩ : FVec Nat).capacity :=
  swap_remove_exact (⟨[0, 1, 2, 3], 4⟩ : FVec Nat) 1 (by decide) (by decide)

/-- Characterization of the `insert` shift loop when it starts in
bounds (`index ≤ i < |m|`): it terminates normally, slots at most
`index` and beyond `i` are untouched, and every slot in `(index, i]`
receives the prior value of its left neighbour. -/
lemma insertLoop_spec {α : Type} :
    ∀ (i : Nat) (m : List α) (index : Nat), index ≤ i → i < m.length →
      ∃ m', insertLoop m i index = some m' ∧ m'.length = m.length ∧
        (∀ p, p ≤ index ∨ i < p → m'[p]? = m[p]?) ∧
        (∀ p, index < p → p ≤ i → m'[p]? = m[p - 1]?) := by
  intro i
  induction i with
  | zero =>
    intro m index hle _
    have h0 : index = 0 := by omega
    subst h0
    refine ⟨m, ?_, rfl, fun p _ => rfl, fun p h1 h2 => by omega⟩
    rw [insertLoop]
    simp
  | succ j ih =>
    intro m index hle hlt
    by_cases heq : j + 1 = index
    · refine ⟨m, ?_, rfl, fun p _ => rfl, fun p h1 h2 => by omega⟩
      rw [insertLoop]
      simp [heq]
    · have hle' : index ≤ j := by omega
      have hjlt : j < m.length := by omega
      have hread : m[j]? = some m[j] := List.getElem?_eq_getElem hjlt
      obtain ⟨m', hm', hlen, hA, hB⟩ :=
        ih (m.set (j + 1) m[j]) index hle' (by simpa using hjlt)
      refine ⟨m', ?_, by rw [hlen]; simp, ?_, ?_⟩
      · rw [insertLoop]
        rw [if_neg heq]
        show (match m[j]? with
          | none => none
          | some x =>
            if j + 1 < m.length then insertLoop (m.set (j + 1) x) j index
            else none) = some m'
        rw [hread]
        show (if j + 1 < m.length then insertLoop (m.set (j + 1) m[j]) j index
          else none) = some m'
        rw [if_pos hlt]
        exact hm'
      · intro p hp
        have hne : (j + 1) ≠ p := by omega
        have : m'[p]? = (m.set (j + 1) m[j])[p]? := by
          apply hA
          omega
        rw [this, List.getElem?_set_ne hne]
      · intro p h1 h2
        by_cases hp : p ≤ j
        · rw [hB p h1 hp, List.getElem?_set_ne (by omega : (j + 1) ≠ p - 1)]
        · have hp1 : p = j + 1 := by omega
          subst hp1
          have : m'[j + 1]? = (m.set (j + 1) m[j])[j + 1]? := hA (j + 1) (Or.inr (by omega))
          rw [this, List.getElem?_set_self (by simpa using hlt)]
          simp only [Nat.add_sub_cancel]
          exact hread.symm

/-- Characterization of a successful `insert`: with at least one prior
element, two free slots and `index ≤ len`, it returns `Ok`, writes
`element` at `index`, shifts `(index, len + 1]` one slot right (slot
`len + 1` thereby receives the old leftover at slot `len`), and leaves
slots below `index` and at or beyond `len + 2` untouched. -/
lemma insert_ok_char {α : Type} (v : FVec α) (index : Nat) (x : α)
    (hlen : 1 ≤ v.len) (hav : 2 ≤ v.available) (hidx : index ≤ v.len) :
    ∃ m', v.insert index x = Outcome.done (Except.ok ()) ⟨m', v.len + 1⟩ ∧
      m'.length = v.memory.length ∧ m'[index]? = some x ∧
      (∀ p, p < index → m'[p]? = v.memory[p]?) ∧
      (∀ p, index < p → p ≤ v.len + 1 → m'[p]? = v.memory[p - 1]?) ∧
      (∀ p, v.len + 2 ≤ p → m'[p]? = v.memory[p]?) := by
  have hroom : v.len + 2 ≤ v.memory.length := by
    unfold available capacity at hav
    omega
  have h1 : v.len + 1 < v.memory.length := by omega
  obtain ⟨m0, hloop, hlen0, hA, hB⟩ :=
    insertLoop_spec (v.len + 1) v.memory index (by omega) h1
  have hidx0 : index < m0.length := by omega
  refine ⟨m0.set index x, ?_, by simp [hlen0], List.getElem?_set_self hidx0, ?_, ?_, ?_⟩
  · unfold FVec.insert
    rw [if_neg (by unfold capacity; omega), if_neg (by omega),
      if_pos (by unfold available capacity; omega : 1 ≤ v.available), hloop]
    show (if index < m0.length then
        Outcome.done (Except.ok ()) ⟨m0.set index x, v.len + 1⟩
      else Outcome.fault) =
      Outcome.done (Except.ok ()) ⟨m0.set index x, v.len + 1⟩
    rw [if_pos hidx0]
  · intro p hp
    rw [List.getElem?_set_ne (by omega : index ≠ p)]
    exact hA p (Or.inl (by omega))
  · intro p hp1 hp2
    rw [List.getElem?_set_ne (by omega : index ≠ p)]
    exact hB p hp1 hp2
  · intro p hp
    rw [List.getElem?_set_ne (by omega : index ≠ p)]
    exact hA p (Or.inr (by omega))

/-- C9.  A successful `insert` with prior length `L ≥ 1`, two free
slots and `index ≤ L` also writes the inactive slot `L + 1`, storing
there a copy of the leftover value previously at slot `L`, while every
slot at or beyond `L + 2` is untouched. -/
theorem insert_writes_one_past_active {α : Type} (v : FVec α) (index : Nat) (x : α)
    (hlen : 1 ≤ v.len) (hav : 2 ≤ v.available) (hidx : index ≤ v.len) :
    ∃ v', v.insert index x = Outcome.done (Except.ok ()) v' ∧
      v'.memory[v.len + 1]? = v.memory[v.len]? ∧
      ∀ p, v.len + 2 ≤ p → v'.memory[p]? = v.memory[p]? := by
  obtain ⟨m', hins, _, _, _, hB, hC⟩ := insert_ok_char v index x hlen hav hidx
  refine ⟨⟨m', v.len + 1⟩, hins, ?_, hC⟩
  have := hB (v.len + 1) (by omega) le_rfl
  simpa using this

/-- Witness for C9: inserting 9 at index 1 of a capacity-4 vector with
active elements `[1,2]`; the leftover 30 at slot 2 is copied to slot 3. -/
theorem insert_writes_one_past_active_witness :
    ∃ v', (⟨[1, 2, 30, 40], 2⟩ : FVec Nat).insert 1 9 = Outcome.done (Except.ok ()) v' ∧
      v'.memory[2 + 1]? = (⟨[1, 2, 30, 40], 2⟩ : FVec Nat).memory[2]? ∧
      ∀ p, 2 + 2 ≤ p → v'.memory[p]? = (⟨[1, 2, 30, 40], 2⟩ : FVec Nat).memory[p]? :=
  insert_writes_one_past_active (⟨[1, 2, 30, 40], 2⟩ : FVec Nat) 1 9
    (by decide) (by decide) (by decide)

/-- The shift loop of `insert` never changes the region's size. -/
lemma insertLoop_length {α : Type} :
    ∀ (i : Nat) (m : List α) (index : Nat) (m' : List α),
      insertLoop m i index = some m' → m'.length = m.length := by
  intro i
  induction i with
  | zero =>
    intro m index m' h
    rw [insertLoop] at h
    split at h
    · cases h; rfl
    · exact Option.noConfusion h
  | succ j ih =>
    intro m index m' h
    rw [insertLoop] at h
    split at h
    · cases h; rfl
    · have h' : (match m[j]? with
        | none => none
        | some x =>
          if j + 1 < m.length then insertLoop (m.set (j + 1) x) j index
          else none) = some m' := h
      split at h'
      · exact Option.noConfusion h'
      · next x hx =>
        split at h'
        · have := ih (m.set (j + 1) x) index m' h'
          simpa using this
        · exact Option.noConfusion h'

/-- The `remove` shift loop never changes the region's size. -/
lemma removeLoop_length {α : Type} (m : List α) (i stop : Nat) :
    (removeLoop m i stop).length = m.length := by
  induction m, i, stop using removeLoop.induct with
  | case1 m i stop h x hx ih => rw [removeLoop]; simp [h, hx, ih]
  | case2 m i stop h hx => rw [removeLoop]; simp [h, hx]
  | case3 m i stop h => rw [removeLoop]; simp [h]

/-- The `resize` fill loop never changes the region's size. -/
lemma fillLoop_length {α : Type} (m : List α) (i stop : Nat) (value : α) :
    (fillLoop m i stop value).length = m.length := by
  induction m, i, stop, value using fillLoop.induct with
  | case1 m i stop value h ih => rw [fillLoop]; simp [h, ih]
  | case2 m i stop value h => rw [fillLoop]; simp [h]

/-- The `map_in_place` loop never changes the region's size. -/
lemma mapLoop_length {α : Type} (f : α → α) (m : List α) (i len : Nat) :
    (mapLoop f m i len).length = m.length := by
  induction m, i, len using mapLoop.induct f with
  | case1 m i len h x hx ih => rw [mapLoop]; simp [h, hx, ih]
  | case2 m i len h hx => rw [mapLoop]; simp [h, hx]
  | case3 m i len h => rw [mapLoop]; simp [h]

/-- The `retain` loop keeps the region's size and moves `tail` up by at
most the number of loop iterations. -/
lemma retainLoop_bound {α : Type} (f : α → Bool) (m : List α) (len head tail : Nat) :
    (retainLoop f m len head tail).1.length = m.length ∧
      (retainLoop f m len head tail).2 ≤ tail + (len - head) := by
  induction m, len, head, tail using retainLoop.induct f with
  | case1 m len head tail h x hx hfx ih =>
    have hred : retainLoop f m len head tail
        = retainLoop f (m.set tail x) len (head + 1) (tail + 1) := by
      rw [retainLoop]
      simp [h, hx, hfx]
    rw [hred]
    refine ⟨by rw [ih.1]; simp, ?_⟩
    have := ih.2
    omega
  | case2 m len head tail h x hx hfx ih =>
    have hred : retainLoop f m len head tail
        = retainLoop f m len (head + 1) tail := by
      rw [retainLoop]
      simp [h, hx, hfx]
    rw [hred]
    refine ⟨ih.1, ?_⟩
    have := ih.2
    omega
  | case3 m len head tail h hx => rw [retainLoop]; simp [h, hx]
  | case4 m len head tail h => rw [retainLoop]; simp [h]

/-- The `dedup` loop keeps the region's size and moves `tail` up by at
most the number of loop iterations. -/
lemma dedupLoop_bound {α : Type} [DecidableEq α] (m : List α) (len head tail : Nat) :
    (dedupLoop m len head tail).1.length = m.length ∧
      (dedupLoop m len head tail).2 ≤ tail + (len - head) := by
  induction m, len, head, tail using dedupLoop.induct with
  | case1 m len head tail h x y hy hx hne ih =>
    have hred : dedupLoop m len head tail
        = dedupLoop (m.set (tail + 1) x) len (head + 1) (tail + 1) := by
      rw [dedupLoop]
      simp [h, hx, hy, hne]
    rw [hred]
    refine ⟨by rw [ih.1]; simp, ?_⟩
    have := ih.2
    omega
  | case2 m len head tail h x y hy hx hne ih =>
    have hxy : x = y := not_not.mp hne
    have hred : dedupLoop m len head tail = dedupLoop m len (head + 1) tail := by
      rw [dedupLoop]
      simp [h, hx, hy, hxy]
    rw [hred]
    refine ⟨ih.1, ?_⟩
    have := ih.2
    omega
  | case3 m len head tail h hnone =>
    have hred : dedupLoop m len head tail = (m, tail) := by
      rw [dedupLoop]
      cases hh : m[head]? with
      | none => simp [h, hh]
      | some x =>
        cases ht : m[tail]? with
        | none => simp [h, hh, ht]
        | some y => exact absurd trivial (by simpa using hnone x y hh ht)
    rw [hred]
    simp
  | case4 m len head tail h => rw [dedupLoop]; simp [h]

/-- The `extend` loop never lets `len` pass the region's size, provided
it starts with a free slot. -/
lemma extendLoop_wf {α : Type} :
    ∀ (xs : List α) (m : List α) (len : Nat), len < m.length →
      (extendLoop m len xs).2 ≤ (extendLoop m len xs).1.length := by
  intro xs
  induction xs with
  | nil =>
    intro m len h
    simp only [extendLoop]
    omega
  | cons n rest ih =>
    intro m len h
    have hred : extendLoop m len (n :: rest) =
        if (m.set len n).length - (len + 1) = 0 then ((m.set len n), len + 1)
        else extendLoop (m.set len n) (len + 1) rest := rfl
    rw [hred]
    split
    · next hz =>
      simp only
      rw [List.length_set]
      omega
    · next hz =>
      apply ih
      rw [List.length_set] at hz ⊢
      omega

/-- Operation `push` preserves well-formedness. -/
lemma push_wf {α : Type} (v : FVec α) (x : α) (h : v.Wf) : (v.push x).2.Wf := by
  by_cases hav : 1 ≤ v.available
  · unfold push
    rw [if_pos hav]
    show v.len + 1 ≤ (v.memory.set v.len x).length
    rw [List.length_set]
    unfold available capacity at hav
    omega
  · unfold push
    rw [if_neg hav]
    exact h

/-- Operation `push_all` preserves well-formedness. -/
lemma push_all_wf {α : Type} (v : FVec α) (xs : List α) (h : v.Wf) :
    (v.push_all xs).2.Wf := by
  by_cases hgt : xs.length > v.available
  · unfold push_all
    rw [if_pos hgt]
    exact h
  · unfold push_all
    rw [if_neg hgt]
    show (pushAllLoop v.memory v.len xs).2 ≤ (pushAllLoop v.memory v.len xs).1.length
    have hroom : v.len + xs.length ≤ v.memory.length := by
      unfold available capacity at hgt
      omega
    obtain ⟨h1, h2, _⟩ := pushAllLoop_spec xs v.memory v.len hroom
    rw [h1, h2]
    exact hroom

/-- Operation `insert` preserves well-formedness on every non-fault
return. -/
lemma insert_wf {α : Type} (v : FVec α) (i : Nat) (x : α)
    (r : Except ErrorKind Unit) (v' : FVec α)
    (h : v.insert i x = Outcome.done r v') (hwf : v.Wf) : v'.Wf := by
  unfold FVec.insert at h
  split at h
  · exact Outcome.noConfusion h
  · split at h
    · injection h with h1 h2
      subst h2
      exact push_wf v x hwf
    · split at h
      · next hav =>
        have h' : (match insertLoop v.memory (v.len + 1) i with
          | none => Outcome.fault
          | some m =>
            if i < m.length then
              Outcome.done (Except.ok ()) ⟨m.set i x, v.len + 1⟩
            else Outcome.fault) = Outcome.done r v' := h
        split at h'
        · exact Outcome.noConfusion h'
        · next m0 hloop =>
          split at h'
          · injection h' with h1 h2
            subst h2
            show v.len + 1 ≤ (m0.set i x).length
            rw [List.length_set, insertLoop_length (v.len + 1) v.memory i m0 hloop]
            unfold available capacity at hav
            omega
          · exact Outcome.noConfusion h'
      · injection h with h1 h2
        subst h2
        exact hwf

/-- Operation `pop` preserves well-formedness. -/
lemma pop_wf {α : Type} (v : FVec α) (h : v.Wf) : v.pop.2.Wf := by
  unfold pop
  split
  · show v.len - 1 ≤ v.memory.length
    omega
  · exact h

/-- Operation `remove` preserves well-formedness. -/
lemma remove_wf {α : Type} (v : FVec α) (i : Nat) (a : α) (v' : FVec α)
    (h : v.remove i = some (a, v')) (hwf : v.Wf) : v'.Wf := by
  unfold remove at h
  split at h
  · split at h
    · injection h with h1
      injection h1 with h2 h3
      subst h3
      show v.len - 1 ≤ (removeLoop v.memory i (v.len - 1)).length
      rw [removeLoop_length]
      omega
    · exact Option.noConfusion h
  · exact Option.noConfusion h

/-- The second component of `pop` keeps the region and never grows `len`. -/
lemma pop_snd_memory {α : Type} (v : FVec α) : v.pop.2.memory = v.memory := by
  unfold pop
  split <;> rfl

/-- The active length after `pop` is at most the one before. -/
lemma pop_snd_len_le {α : Type} (v : FVec α) : v.pop.2.len ≤ v.len := by
  unfold pop
  split
  · show v.len - 1 ≤ v.len
    omega
  · exact le_rfl

/-- Operation `swap_remove` preserves well-formedness. -/
lemma swap_remove_wf {α : Type} (v : FVec α) (i : Nat) (a : α) (v' : FVec α)
    (h : v.swap_remove i = some (a, v')) (hwf : v.Wf) : v'.Wf := by
  unfold swap_remove at h
  split at h
  · split at h
    · exact remove_wf v 0 a v' h hwf
    · split at h
      · next removed last w hx hp =>
        injection h with h1
        injection h1 with h2 h3
        subst h3
        show w.len ≤ (w.memory.set i last).length
        rw [List.length_set]
        have hw : w = v.pop.2 := by rw [hp]
        rw [hw, pop_snd_memory]
        have := pop_snd_len_le v
        rw [hw] at *
        omega
      · exact Option.noConfusion h
  · exact Option.noConfusion h

/-- Operation `clear` preserves well-formedness. -/
lemma clear_wf {α : Type} (v : FVec α) : v.clear.Wf := by
  show 0 ≤ v.memory.length
  omega

/-- Operation `resize` preserves well-formedness on every non-fault
return. -/
lemma resize_wf {α : Type} (v : FVec α) (n : Nat) (x : α) (v' : FVec α)
    (h : v.resize n x = some v') : v'.Wf := by
  unfold resize at h
  split at h
  · next hn =>
    split at h
    · injection h with h1
      subst h1
      exact hn
    · injection h with h1
      subst h1
      show n ≤ (fillLoop v.memory v.len n x).length
      rw [fillLoop_length]
      unfold capacity at hn
      exact hn
  · exact Option.noConfusion h

/-- Operation `retain` preserves well-formedness. -/
lemma retain_wf {α : Type} (f : α → Bool) (v : FVec α) (hwf : v.Wf) :
    (retain f v).Wf := by
  unfold retain
  show (retainLoop f v.memory v.len 0 0).2 ≤ (retainLoop f v.memory v.len 0 0).1.length
  obtain ⟨h1, h2⟩ := retainLoop_bound f v.memory v.len 0 0
  rw [h1]
  omega

/-- Operation `dedup` preserves well-formedness. -/
lemma dedup_wf {α : Type} [DecidableEq α] (v : FVec α) (hwf : v.Wf) :
    v.dedup.Wf := by
  unfold dedup
  split
  · exact hwf
  · next hgt =>
    show (dedupLoop v.memory v.len 1 0).2 + 1 ≤ (dedupLoop v.memory v.len 1 0).1.length
    obtain ⟨h1, h2⟩ := dedupLoop_bound v.memory v.len 1 0
    rw [h1]
    omega

/-- Operation `map_in_place` preserves well-formedness. -/
lemma map_in_place_wf {α : Type} (f : α → α) (v : FVec α) (hwf : v.Wf) :
    (map_in_place f v).Wf := by
  unfold map_in_place
  show v.len ≤ (mapLoop f v.memory 0 v.len).length
  rw [mapLoop_length]
  exact hwf

/-- Operation `extend` preserves well-formedness. -/
lemma extend_wf {α : Type} (v : FVec α) (xs : List α) (hwf : v.Wf) :
    (v.extend xs).Wf := by
  unfold extend
  split
  · exact hwf
  · next hav =>
    show (extendLoop v.memory v.len xs).2 ≤ (extendLoop v.memory v.len xs).1.length
    apply extendLoop_wf
    unfold available capacity at hav
    omega

/-- States reachable through the crate's interface: construction via
`new` (which binds any region with `len = 0`) followed by any sequence
of the mutating operations.  Fallible operations contribute a next
state only on a non-fault return (a fault terminates the program). -/
inductive Reachable {α : Type} [DecidableEq α] : FVec α → Prop where
  | init (mem : List α) : Reachable ⟨mem, 0⟩
  | step_push (v : FVec α) (x : α) : Reachable v → Reachable (v.push x).2
  | step_push_all (v : FVec α) (xs : List α) : Reachable v → Reachable (v.push_all xs).2
  | step_insert (v : FVec α) (i : Nat) (x : α) (r : Except ErrorKind Unit) (v' : FVec α) :
      Reachable v → v.insert i x = Outcome.done r v' → Reachable v'
  | step_extend (v : FVec α) (xs : List α) : Reachable v → Reachable (v.extend xs)
  | step_pop (v : FVec α) : Reachable v → Reachable v.pop.2
  | step_remove (v : FVec α) (i : Nat) (a : α) (v' : FVec α) :
      Reachable v → v.remove i = some (a, v') → Reachable v'
  | step_swap_remove (v : FVec α) (i : Nat) (a : α) (v' : FVec α) :
      Reachable v → v.swap_remove i = some (a, v') → Reachable v'
  | step_clear (v : FVec α) : Reachable v → Reachable v.clear
  | step_resize (v : FVec α) (n : Nat) (x : α) (v' : FVec α) :
      Reachable v → v.resize n x = some v' → Reachable v'
  | step_retain (v : FVec α) (f : α → Bool) : Reachable v → Reachable (retain f v)
  | step_dedup (v : FVec α) : Reachable v → Reachable v.dedup
  | step_map (v : FVec α) (f : α → α) : Reachable v → Reachable (map_in_place f v)

/-- C5.  The invariant `len() ≤ capacity()` holds after construction
and is preserved by every operation: it holds in every reachable state. -/
theorem reachable_len_le_capacity {α : Type} [DecidableEq α] (v : FVec α)
    (h : Reachable v) : v.len ≤ v.capacity := by
  induction h with
  | init mem => show (0 : Nat) ≤ mem.length; omega
  | step_push v x _ ih => exact push_wf v x ih
  | step_push_all v xs _ ih => exact push_all_wf v xs ih
  | step_insert v i x r v' _ hstep ih => exact insert_wf v i x r v' hstep ih
  | step_extend v xs _ ih => exact extend_wf v xs ih
  | step_pop v _ ih => exact pop_wf v ih
  | step_remove v i a v' _ hstep ih => exact remove_wf v i a v' hstep ih
  | step_swap_remove v i a v' _ hstep ih => exact swap_remove_wf v i a v' hstep ih
  | step_clear v _ _ => exact clear_wf v
  | step_resize v n x v' _ hstep _ => exact resize_wf v n x v' hstep
  | step_retain v f _ ih => exact retain_wf f v ih
  | step_dedup v _ ih => exact dedup_wf v ih
  | step_map v f _ ih => exact map_in_place_wf f v ih

/-- Witness for C5 at the state reached by `new` on a two-slot region
followed by one `push`. -/
theorem reachable_len_le_capacity_witness :
    (⟨[7, 0], 1⟩ : FVec Nat).len ≤ (⟨[7, 0], 1⟩ : FVec Nat).capacity :=
  reachable_len_le_capacity ⟨[7, 0], 1⟩
    (show Reachable (⟨[7, 0], 1⟩ : FVec Nat) from
      Reachable.step_push ⟨[0, 0], 0⟩ 7 (Reachable.init [0, 0]))

/-- Lists of at most one element have no runs to collapse. -/
lemma dedupSpec_short {α : Type} [DecidableEq α] (l : List α) (h : l.length ≤ 1) :
    dedupSpec l = l := by
  match l with
  | [] => rw [dedupSpec]
  | [a] => rw [dedupSpec]
  | a :: b :: rest => simp at h

/-- Run collapsing of a non-empty list keeps the head and then scans,
keeping each element that differs from the last kept one. -/
lemma dedupSpec_cons {α : Type} [DecidableEq α] :
    ∀ (l : List α) (a : α), dedupSpec (a :: l) = a :: dedupGo a l := by
  intro l
  induction l with
  | nil =>
    intro a
    rw [dedupSpec]
    rfl
  | cons b xs ih =>
    intro a
    have hstep : dedupSpec (a :: b :: xs)
        = if a = b then dedupSpec (a :: xs) else a :: dedupSpec (b :: xs) := by
      rw [dedupSpec]
    by_cases hab : a = b
    · subst hab
      rw [hstep, if_pos rfl, ih a]
      show a :: dedupGo a xs = a :: dedupGo a (a :: xs)
      simp [dedupGo]
    · rw [hstep, if_neg hab, ih b]
      show a :: b :: dedupGo b xs = a :: dedupGo a (b :: xs)
      simp [dedupGo, Ne.symm hab]

/-- Invariant run of the `dedup` loop: starting with `tail < head ≤ len`
and the last kept element `y` sitting at slot `tail`, the final active
prefix is the already-kept prefix followed by the scan of the remaining
segment, and the final `tail` accounts for exactly the kept elements. -/
lemma dedupLoop_run {α : Type} [DecidableEq α] :
    ∀ (k : Nat) (m : List α) (len head tail : Nat) (y : α),
      len ≤ head + k → tail < head → head ≤ len → len ≤ m.length →
      m[tail]? = some y →
      (dedupLoop m len head tail).1.take ((dedupLoop m len head tail).2 + 1)
          = m.take (tail + 1) ++ dedupGo y ((m.drop head).take (len - head)) ∧
        (dedupLoop m len head tail).2 + 1
          = tail + 1 + (dedupGo y ((m.drop head).take (len - head))).length := by
  intro k
  induction k with
  | zero =>
    intro m len head tail y hk ht hh hm hy
    have hnl : ¬ head < len := by omega
    have hred : dedupLoop m len head tail = (m, tail) := by
      rw [dedupLoop]
      simp [hnl]
    have hseg : len - head = 0 := by omega
    rw [hred, hseg]
    simp [dedupGo]
  | succ k ih =>
    intro m len head tail y hk ht hh hm hy
    by_cases hl : head < len
    · have hhead_lt : head < m.length := by omega
      have hx : m[head]? = some m[head] := List.getElem?_eq_getElem hhead_lt
      have hseg : (m.drop head).take (len - head)
          = m[head] :: (m.drop (head + 1)).take (len - (head + 1)) := by
        rw [List.drop_eq_getElem_cons hhead_lt,
          show len - head = (len - (head + 1)) + 1 from by omega,
          List.take_succ_cons]
      by_cases hxy : m[head] = y
      · have hred : dedupLoop m len head tail = dedupLoop m len (head + 1) tail := by
          rw [dedupLoop]
          simp [hl, hx, hy, hxy]
        obtain ⟨ih1, ih2⟩ := ih m len (head + 1) tail y (by omega) (by omega)
          (by omega) hm hy
        rw [hred, hseg]
        constructor
        · rw [ih1]
          congr 1
          simp [dedupGo, hxy]
        · rw [ih2]
          congr 2
          simp [dedupGo, hxy]
      · have htail1 : tail + 1 < m.length := by omega
        have hred : dedupLoop m len head tail
            = dedupLoop (m.set (tail + 1) m[head]) len (head + 1) (tail + 1) := by
          rw [dedupLoop]
          simp [hl, hx, hy, hxy]
        have hy' : (m.set (tail + 1) m[head])[tail + 1]? = some m[head] :=
          List.getElem?_set_self (by simpa using htail1)
        obtain ⟨ih1, ih2⟩ := ih (m.set (tail + 1) m[head]) len (head + 1) (tail + 1)
          m[head] (by omega) (by omega) (by omega) (by simpa using hm) hy'
        have hdropset : (m.set (tail + 1) m[head]).drop (head + 1) = m.drop (head + 1) := by
          rw [List.drop_set, if_pos (by omega)]
        rw [hred, hseg]
        constructor
        · rw [ih1, hdropset, take_set_succ m (tail + 1) m[head] htail1]
          simp [dedupGo, hxy]
        · rw [ih2, hdropset]
          simp [dedupGo, hxy]
          omega
    · have hred : dedupLoop m len head tail = (m, tail) := by
        rw [dedupLoop]
        simp [hl]
      have hseg : len - head = 0 := by omega
      rw [hred, hseg]
      simp [dedupGo]

/-- C7.  `dedup` replaces every maximal run of consecutive equal active
elements by its first element, and leaves the vector untouched when
`len ≤ 1`. -/
theorem dedup_collapses_runs {α : Type} [DecidableEq α] (v : FVec α) (hwf : v.Wf) :
    v.dedup.as_slice = dedupSpec v.as_slice ∧ (v.len ≤ 1 → v.dedup = v) := by
  by_cases hle : v.len ≤ 1
  · have hred : v.dedup = v := by
      unfold dedup
      rw [if_pos hle]
    refine ⟨?_, fun _ => hred⟩
    rw [hred, dedupSpec_short v.as_slice (by simp [as_slice]; omega)]
  · have h2 : 2 ≤ v.len := by omega
    have h0 : 0 < v.memory.length := by omega
    have hy : v.memory[0]? = some v.memory[0] := List.getElem?_eq_getElem h0
    obtain ⟨h1', h2'⟩ := dedupLoop_run v.len v.memory v.len 1 0 v.memory[0]
      (by omega) (by omega) (by omega) hwf hy
    have hred : v.dedup
        = ⟨(dedupLoop v.memory v.len 1 0).1, (dedupLoop v.memory v.len 1 0).2 + 1⟩ := by
      unfold dedup
      rw [if_neg (by omega)]
    refine ⟨?_, fun hcon => absurd hcon (by omega)⟩
    rw [hred]
    show (dedupLoop v.memory v.len 1 0).1.take ((dedupLoop v.memory v.len 1 0).2 + 1)
      = dedupSpec (v.memory.take v.len)
    have htake1 : v.memory.take 1 = [v.memory[0]] := by
      rw [show (1 : Nat) = 0 + 1 from rfl, List.take_succ, List.take_zero, hy]
      rfl
    rw [h1', htake1]
    conv_rhs => rw [show v.len = 1 + (v.len - 1) from by omega, List.take_add, htake1,
      List.singleton_append]
    rw [dedupSpec_cons]
    rfl

/-- Witness for C7: the doc example `[1,2,2,3,2]`, whose runs collapse
to `[1,2,3,2]`. -/
theorem dedup_collapses_runs_witness :
    (⟨[1, 2, 2, 3, 2], 5⟩ : FVec Nat).dedup.as_slice
        = dedupSpec ((⟨[1, 2, 2, 3, 2], 5⟩ : FVec Nat).as_slice) ∧
      ((⟨[1, 2, 2, 3, 2], 5⟩ : FVec Nat).len ≤ 1 →
        (⟨[1, 2, 2, 3, 2], 5⟩ : FVec Nat).dedup = ⟨[1, 2, 2, 3, 2], 5⟩) :=
  dedup_collapses_runs (⟨[1, 2, 2, 3, 2], 5⟩ : FVec Nat) (by decide)
